import Mathlib

/-!
Verification of the `jbrowse_utils` reference-sequence conversion pipeline
(`prepare_refseqs.py`, `json_file_store.py`) against its natural-language
specification.  Python byte strings are modelled as `List Nat` (each entry a
byte value), text strings as `String`, dictionaries as association lists in
insertion order, and the filesystem side effects as explicit logs of write
events.  Fallible code paths (Python exceptions) are modelled with `Except`.
-/

namespace JBrowseUtils

/-- Python byte strings (`bytes`) as lists of byte values. -/
abbrev ByteStr := List Nat

/-- The byte set matched by the regex class `[\s\r\n]` (and by `bytes.strip()`):
space, tab, newline, vertical tab, form feed, carriage return. -/
def isSpaceByte (b : Nat) : Bool :=
  b = 32 || b = 9 || b = 10 || b = 11 || b = 12 || b = 13

/-- `re.sub(rb'[\s\r\n]', b'', line)` — remove all whitespace bytes
(prepare_refseqs.py line 244). -/
def stripWS (l : ByteStr) : ByteStr := l.filter (fun b => !isSpaceByte b)

/-- Lexicographic byte-wise comparison; embeds Python's `<=` on `bytes`
(and, through UTF-8 order preservation, `<=` on `str`), as used by
`sorted(...)` over dictionary keys. -/
def bytesLe : ByteStr → ByteStr → Bool
  | [], _ => true
  | _ :: _, [] => false
  | a :: as, b :: bs => if a < b then true else if b < a then false else bytesLe as bs

/-- A Python dictionary key as the FASTA path produces them: either a
decoded text string (`header_match.group(1).decode()`, line 232) or a raw
byte string (`header_match.group(1)`, line 240).  In Python a `bytes` and
a `str` object never compare equal, whatever their content, so the two
constructors are distinct here; within one constructor, content equality
is faithful (UTF-8 decoding is injective). -/
inductive PyKey where
  | str (cs : ByteStr)
  | bytes (bs : ByteStr)
deriving Repr, DecidableEq

/-- Python `<=` on homogeneous `PyKey`s, as `sorted()` uses on dict keys.
Comparing a `str` with a `bytes` raises `TypeError` in Python; the
mapping keys sorted by the source are always homogeneous, so the
heterogeneous branches here are never reached. -/
def pyKeyLe : PyKey → PyKey → Bool
  | .str a, .str b => bytesLe a b
  | .bytes a, .bytes b => bytesLe a b
  | .str _, .bytes _ => true
  | .bytes _, .str _ => false

/-- Python dict insertion: overwrite the value in place if the key is
present, otherwise append the pair. -/
def dict_insert {ν α : Type} [DecidableEq ν] (m : List (ν × α)) (k : ν) (v : α) :
    List (ν × α) :=
  if m.any (fun p => p.1 = k) then
    m.map (fun p => if p.1 = k then (k, v) else p)
  else m ++ [(k, v)]

/-- Python dict lookup `m[k]` as an `Option`. -/
def dict_get {ν α : Type} [DecidableEq ν] (m : List (ν × α)) (k : ν) : Option α :=
  (m.find? (fun p => p.1 = k)).map (fun p => p.2)

/-- `list.remove(x)`: remove the first element equal to `x` (no-op here if
absent; the callers below only remove present elements). -/
def list_remove {α : Type} [DecidableEq α] : List α → α → List α
  | [], _ => []
  | a :: as, x => if a = x then as else a :: list_remove as x

/-! ## write_refseqs_json (prepare_refseqs.py lines 421-442) -/

/-- The removal pass of `add_refs` (lines 433-436): iterate over a copy of
`data`, and `data.remove(seq)` each record whose `name` is a key of
`refseqs`.  Modelled as a fold over the copy carrying the mutated list. -/
def prune_stale {ν α : Type} [DecidableEq ν] [DecidableEq α] (getName : α → ν)
    (keys : List ν) (data : List α) : List α :=
  data.foldl (fun acc s => if getName s ∈ keys then list_remove acc s else acc) data

/-- The `add_refs` callback of `write_refseqs_json` (lines 432-441): drop
prior records whose name is a key being re-written, then append
`refseqs[name]` for each name — in `ref_order` if one was recorded, else
in sorted key order.  `le` embeds Python's comparison used by `sorted`.
The lookup `refseqs[name]` at line 440 raises `KeyError` when `name` is
not a key, modelled as `.error ()` (the exception escapes the `modify`
callback, so the document is never written); on the FASTA path this fires
on every sort-disabled run, because `ref_order` holds raw bytes (line
240) while the mapping keys are decoded strings (line 232). -/
def add_refs {ν α : Type} [DecidableEq ν] [DecidableEq α] (getName : α → ν)
    (le : ν → ν → Bool) (refseqs : List (ν × α)) (ref_order : List ν)
    (data : Option (List α)) : Except Unit (List α) :=
  let d := data.getD []
  let d := prune_stale getName (refseqs.map Prod.fst) d
  let names := if ref_order.isEmpty then
      (refseqs.map Prod.fst).insertionSort (fun a b => le a b = true) else ref_order
  names.foldlM
    (fun acc n =>
      match dict_get refseqs n with
      | some v => Except.ok (acc ++ [v])
      | none => Except.error ())
    d

/-! ## write_track_entry's merge callback (prepare_refseqs.py lines 407-417) -/

/-- The persisted `trackList.json` document: `{formatVersion, tracks}`.
Track descriptors themselves are opaque here (`α`); only the `label`
projection takes part in the merge. -/
structure TrackListDoc (α : Type) where
  formatVersion : Nat
  tracks : List α
deriving Repr, DecidableEq

/-- Lines 413-416: `for idx, data_track in enumerate(data['tracks'][:]):
if data_track['label'] == seq_track_name: data['tracks'][idx] = track; break`
— replace the first entry with matching label, then stop.  Note there is no
append when no label matches. -/
def replace_track {α : Type} (labelOf : α → String) (track : α) (name : String) :
    List α → List α
  | [] => []
  | t :: ts =>
      if labelOf t = name then track :: ts else t :: replace_track labelOf track name ts

/-- The `add_track` callback (lines 407-417): if no persisted document (or
an empty file, both loaded as falsy), create `{formatVersion: 1, tracks:
[track]}`; otherwise replace the first entry whose label equals
`seq_track_name` in place. -/
def add_track {α : Type} (labelOf : α → String) (track : α) (seq_track_name : String) :
    Option (TrackListDoc α) → TrackListDoc α
  | none => ⟨1, [track]⟩
  | some d => ⟨d.formatVersion, replace_track labelOf track seq_track_name d.tracks⟩

/-! ## export_gff_sizes (prepare_refseqs.py lines 293-306) -/

/-- One record produced by the GFF-sizes extractor. -/
structure GffSizeRecord where
  name : String
  start : Int
  end_ : Int
  length : Int
deriving Repr, DecidableEq

/-- Python whitespace for `str.strip` / `str.split` (the ASCII cases). -/
def isPyWS (c : Char) : Bool :=
  c = ' ' || c = '\t' || c = '\n' || c = '\r' ||
    c = Char.ofNat 11 || c = Char.ofNat 12

/-- `str.startswith(pre)`. -/
def pyStartsWith (s pre : List Char) : Bool := s.take pre.length == pre

/-- `str.strip()`: remove leading and trailing whitespace. -/
def pyStrip (cs : List Char) : List Char :=
  ((cs.dropWhile isPyWS).reverse.dropWhile isPyWS).reverse

/-- `str.split()` with no separator: the maximal whitespace-free runs. -/
def pySplit (cs : List Char) : List (List Char) :=
  (cs.foldr
    (fun c acc =>
      if isPyWS c then [] :: acc
      else
        match acc with
        | [] => [[c]]
        | w :: ws => (c :: w) :: ws)
    []).filter (fun w => w ≠ [])

/-- The digits of a decimal numeral, as a number. -/
def digitsToNat (cs : List Char) : Option Nat :=
  if cs = [] then none
  else
    cs.foldl
      (fun acc c =>
        match acc with
        | none => none
        | some n => if c.isDigit then some (n * 10 + (c.toNat - 48)) else none)
      (some 0)

/-- Python `int(str)` (sign then decimal digits; `ValueError` is `none`). -/
def pyToInt (cs : List Char) : Option Int :=
  match cs with
  | '-' :: rest => (digitsToNat rest).map (fun n => -(n : Int))
  | '+' :: rest => (digitsToNat rest).map (fun n => (n : Int))
  | _ => (digitsToNat cs).map (fun n => (n : Int))

/-- One line of `export_gff_sizes` (lines 298-305): the source tests
`line.startswith('^##sequence-region')` — the regex anchor `^` is part of
the literal — then unpacks exactly four whitespace-separated fields of
`line.strip().split()` (`ValueError` otherwise, modelled by `.error`) and
records `start = int(start) - 1`, `end = int(end)`, `length = int(end)`. -/
def gff_sizes_step (refseqs : List (String × GffSizeRecord)) (line : String) :
    Except Unit (List (String × GffSizeRecord)) :=
  if pyStartsWith line.toList "^##sequence-region".toList then
    match pySplit (pyStrip line.toList) with
    | [_, name, start, end_] =>
        match pyToInt start, pyToInt end_ with
        | some s, some e =>
            .ok (dict_insert refseqs (String.mk name) ⟨String.mk name, s - 1, e, e⟩)
        | _, _ => .error ()
    | _ => .error ()
  else .ok refseqs

/-- `export_gff_sizes` over the lines of one sizes file. -/
def export_gff_sizes_lines (lines : List String) :
    Except Unit (List (String × GffSizeRecord)) :=
  lines.foldlM gff_sizes_step []

/-! ## Streaming FASTA extractor (prepare_refseqs.py lines 205-252, 309-318) -/

/-- The header regex `rb'^\s*>\s*(\S+)\s*(.*)'` (line 222): optional
leading whitespace, `>`, optional whitespace, a non-empty non-space name
token, then (after any whitespace, greedily consumed) the description up
to the newline.  Returns `(name, description)` on a match. -/
def fasta_header_match (line : ByteStr) : Option (ByteStr × ByteStr) :=
  match line.dropWhile isSpaceByte with
  | [] => none
  | c :: rest =>
      if c = 62 then
        let afterGt := rest.dropWhile isSpaceByte
        let name := afterGt.takeWhile (fun b => !isSpaceByte b)
        if name.isEmpty then none
        else
          let desc := ((afterGt.drop name.length).dropWhile isSpaceByte).takeWhile
            (fun b => b ≠ 10)
          some (name, desc)
      else none

/-- Options threaded to `export_fastas` (the subset its behaviour depends
on; `opts['refs'] = None` and `opts['refs'] = []` are both falsy). -/
structure FastaOpts where
  sort : Bool
  seq : Bool
  refs : Option (List ByteStr)
  chunk_size : Nat
deriving Repr, DecidableEq

/-- Line 207: `accept_all_refs = False if opts['refs'] else True`. -/
def accept_all_refs (opts : FastaOpts) : Bool :=
  match opts.refs with
  | none => true
  | some l => l.isEmpty

/-- Line 229: `accept_all_refs or header_match.group(1) in opts['refs']`. -/
def acceptName (opts : FastaOpts) (name : ByteStr) : Bool :=
  accept_all_refs opts || (opts.refs.getD []).contains name

/-- The chunk-emitting loop of `_write_fasta_chunks` (lines 312-317),
with a structural fuel argument: while `(flush and curr_chunk) or
len(curr_chunk) >= chunk_size`, slice off `chunk_size` bytes, write them
as chunk `chunk_num`, and advance the counter.  Each iteration with
`0 < cs` strictly shortens a non-empty buffer, so `chunk.length + 1` fuel
always suffices (`write_chunks_go_fuel_irrel` below); with `cs = 0` the
source loops forever writing empty chunks, a case excluded by the
`0 < chunk_size` hypotheses of every theorem. -/
def write_chunks_go (cs : Nat) : Nat → ByteStr → Nat → Bool →
    List (Nat × ByteStr) × ByteStr × Nat
  | 0, chunk, num, _ => ([], chunk, num)
  | fuel + 1, chunk, num, flush =>
      if (flush = true ∧ chunk ≠ []) ∨ cs ≤ chunk.length then
        if cs = 0 then ([], chunk, num)
        else
          let rest := write_chunks_go cs fuel (chunk.drop cs) (num + 1) flush
          ((num, chunk.take cs) :: rest.1, rest.2)
      else ([], chunk, num)

/-- The loop of `_write_fasta_chunks`, returning the emitted
`(number, data)` chunks, the remaining buffer and the next chunk number. -/
def write_chunks_loop (cs : Nat) (chunk : ByteStr) (num : Nat) (flush : Bool) :
    List (Nat × ByteStr) × ByteStr × Nat :=
  write_chunks_go cs (chunk.length + 1) chunk num flush

/-- `_write_fasta_chunks` (lines 309-318): returns `None` (here `none`)
when the `seq` option is off — the source's bare `return` — otherwise the
result of the chunk loop. -/
def write_fasta_chunks (opts : FastaOpts) (chunk : ByteStr) (num : Nat)
    (flush : Bool) : Option (List (Nat × ByteStr) × ByteStr × Nat) :=
  if opts.seq then some (write_chunks_loop opts.chunk_size chunk num flush) else none

/-- Tag emitted `(number, data)` chunks with a sequence name, as the
chunk-file log records them. -/
def tagFiles (name : ByteStr) (E : List (Nat × ByteStr)) :
    List (ByteStr × Nat × ByteStr) :=
  E.map (fun e => (name, e.1, e.2))

/-- The in-memory record built per accepted FASTA header (line 232-238).
`name` keeps the raw header bytes; `end_` accumulates the
whitespace-stripped base count. -/
structure CurrSeq where
  name : ByteStr
  start : Int
  end_ : Int
  seqChunkSize : Nat
  description : Option ByteStr
deriving Repr, DecidableEq

/-- The mutable state of the `export_fastas` line loop.  `files` logs the
chunk files written so far as `(sequence name, chunk number, chunk
data)`; chunk data is the bytes passed to `outfile.write` (the logical,
pre-gzip content). -/
structure ExpState where
  refseqs : List (PyKey × CurrSeq)
  original_order : List PyKey
  curr : Option CurrSeq
  curr_chunk : ByteStr
  chunk_num : Nat
  files : List (ByteStr × Nat × ByteStr)
deriving Repr, DecidableEq

/-- Close the current record: in the source the record object is aliased
into `refseqs` at its header and mutated in place; here the accumulated
record is written back when the segment ends (same final content).  The
key is `header_match.group(1).decode()` (line 232), a `str`. -/
def closeCurr (st : ExpState) : ExpState :=
  match st.curr with
  | none => st
  | some c =>
      { st with refseqs := dict_insert st.refseqs (PyKey.str c.name) c, curr := none }

/-- One iteration of the `for line in infile` loop of `export_fastas`
(lines 223-249).  `.error ()` marks the `TypeError` the source raises when
unpacking the `None` returned by `_write_fasta_chunks` with the `seq`
option off (lines 226-228). -/
def export_step (opts : FastaOpts) (st : ExpState) (line : ByteStr) :
    Except Unit ExpState :=
  match fasta_header_match line with
  | some (name, desc) =>
      let flushed : Except Unit ExpState :=
        match st.curr with
        | none => .ok st
        | some c =>
            match write_fasta_chunks opts st.curr_chunk st.chunk_num true with
            | none => .error ()
            | some (emitted, rest, n) =>
                .ok { st with
                      files := st.files ++ tagFiles c.name emitted,
                      curr_chunk := rest, chunk_num := n }
      match flushed with
      | .error e => .error e
      | .ok st =>
          let st := closeCurr st
          if acceptName opts name then
            .ok { st with
                  chunk_num := 0, curr_chunk := [],
                  curr := some ⟨name, 0, 0, opts.chunk_size,
                    if desc.isEmpty then none else some desc⟩,
                  original_order :=
                    if opts.sort then st.original_order
                    else st.original_order ++ [PyKey.bytes name] }
          else .ok { st with curr := none }
  | none =>
      match st.curr with
      | none => .ok st
      | some c =>
          if stripWS line ≠ [] then
            let stripped := stripWS line
            let c := { c with end_ := c.end_ + stripped.length }
            if opts.seq then
              match write_fasta_chunks opts (st.curr_chunk ++ stripped) st.chunk_num false with
              | none => .error ()
              | some (emitted, rest, n) =>
                  .ok { st with
                        curr := some c,
                        files := st.files ++ tagFiles c.name emitted,
                        curr_chunk := rest, chunk_num := n }
            else .ok { st with curr := some c }
          else .ok st

/-- The extractor's final output: the name→record mapping, the recorded
first-seen order, and the log of chunk files written. -/
structure ExpOut where
  refseqs : List (PyKey × CurrSeq)
  original_order : List PyKey
  files : List (ByteStr × Nat × ByteStr)
deriving Repr, DecidableEq

/-- The final flush (line 250): `_write_fasta_chunks(curr_seq, curr_chunk,
chunk_num, flush=True, **opts)` with the result discarded, so no error
even with `seq` off.  With no current record the source would only fault
(`KeyError` on `{}['name']`) if the buffer were non-empty, which cannot
happen; that dead branch is `.error`. -/
def final_flush (opts : FastaOpts) (st : ExpState) :
    Except Unit (List (ByteStr × Nat × ByteStr)) :=
  if opts.seq then
    match st.curr with
    | some c =>
        .ok (tagFiles c.name
          (write_chunks_loop opts.chunk_size st.curr_chunk st.chunk_num true).1)
    | none => if st.curr_chunk = [] then .ok [] else .error ()
  else .ok []

/-- Run `export_fastas` over one input stream's lines, from state `st`. -/
def export_from (opts : FastaOpts) (st : ExpState) (lines : List ByteStr) :
    Except Unit ExpOut := do
  let st' ← lines.foldlM (export_step opts) st
  let extra ← final_flush opts st'
  .ok ⟨(closeCurr st').refseqs, st'.original_order, st'.files ++ extra⟩

/-- `export_fastas` on one input stream (a plain, gzipped, or GFF-embedded
FASTA all present the same line stream): the line loop from a fresh state
(lines 218-220), the final flush, and the mapping handed to
`write_refseqs_json`. -/
def export_fastas_model (opts : FastaOpts) (lines : List ByteStr) :
    Except Unit ExpOut :=
  export_from opts ⟨[], [], none, [], 0, []⟩ lines

/-- Specification-side view of one accepted FASTA record: its header name
and description and the raw body lines between its header and the next
header line (or end of input). -/
structure FastaSeg where
  name : ByteStr
  desc : ByteStr
  body : List ByteStr
deriving Repr, DecidableEq

/-- Specification-side segmentation of a FASTA line stream: the accepted
records in input order, each with its body lines.  `curr` is the record
currently open. -/
def acceptedSegmentsAux (opts : FastaOpts) :
    Option FastaSeg → List ByteStr → List FastaSeg
  | curr, [] => curr.toList
  | curr, l :: ls =>
      match fasta_header_match l with
      | some (name, desc) =>
          curr.toList ++
            (if acceptName opts name then
              acceptedSegmentsAux opts (some ⟨name, desc, []⟩) ls
            else acceptedSegmentsAux opts none ls)
      | none =>
          match curr with
          | none => acceptedSegmentsAux opts none ls
          | some s => acceptedSegmentsAux opts (some ⟨s.name, s.desc, s.body ++ [l]⟩) ls

/-- The accepted records of a FASTA line stream, with their body lines. -/
def acceptedSegments (opts : FastaOpts) (lines : List ByteStr) : List FastaSeg :=
  acceptedSegmentsAux opts none lines

/-- The whitespace-stripped bases of one record. -/
def segBases (s : FastaSeg) : ByteStr := (s.body.map stripWS).flatten

/-- The record `export_fastas` builds for one accepted header once its
body has been consumed (lines 232-238 plus the `end` accumulation of
line 245). -/
def segRecord (cs : Nat) (s : FastaSeg) : CurrSeq :=
  ⟨s.name, 0, (segBases s).length, cs, if s.desc.isEmpty then none else some s.desc⟩

/-- The chunk files of one record: one batch flush of its full base
string, numbered from 0, tagged with the record's name. -/
def segChunkFiles (cs : Nat) (s : FastaSeg) : List (ByteStr × Nat × ByteStr) :=
  tagFiles s.name (write_chunks_loop cs (segBases s) 0 true).1

/-- The chunk files of a list of records, in order. -/
def segsFiles (cs : Nat) (segs : List FastaSeg) : List (ByteStr × Nat × ByteStr) :=
  (segs.map (segChunkFiles cs)).flatten

/-- Insert the records of the given segments into a mapping, in order,
keyed by decoded name (line 232). -/
def insertRecords (cs : Nat) (segs : List FastaSeg) (m : List (PyKey × CurrSeq)) :
    List (PyKey × CurrSeq) :=
  segs.foldl (fun m s => dict_insert m (PyKey.str s.name) (segRecord cs s)) m

/-! ## 2bit extractor (prepare_refseqs.py lines 166-202) -/

/-- `struct.unpack('<L', bytes)`: little-endian 32-bit word. -/
def unpack_le (bytes : ByteStr) : Nat :=
  bytes.reverse.foldl (fun acc b => acc * 256 + b) 0

/-- `struct.unpack('>L', bytes)`: big-endian 32-bit word. -/
def unpack_be (bytes : ByteStr) : Nat :=
  bytes.foldl (fun acc b => acc * 256 + b) 0

/-- Decode one 32-bit word in the detected byte order. -/
def unpack_word : Bool → ByteStr → Nat
  | true, bytes => unpack_le bytes
  | false, bytes => unpack_be bytes

/-- The 2bit magic constant `0x1A412743` (line 174). -/
def twobitMagic : Nat := 0x1A412743

/-- `infile.read(n)` from position `pos`: returns at most `n` bytes
(shorter at end of file, like Python `read`). -/
def file_read (file : ByteStr) (pos n : Nat) : ByteStr :=
  (file.drop pos).take n

/-- The decoded 2bit header: detected byte order plus the version, count
and reserved words. -/
structure TwoBitHeader where
  isLE : Bool
  ver : Nat
  cnt : Nat
  reserved : Nat
deriving Repr, DecidableEq

/-- Lines 170-177: read 16 bytes, try `'<4L'` then `'>4L'`, break on the
first template whose signature word equals the magic constant, else raise
`ValueError('Invalid 2bit file: ...')`.  A short read makes
`struct.unpack` raise (`.error "unpack"`). -/
def read_twobit_header (file : ByteStr) : Except String TwoBitHeader :=
  if file.length < 16 then .error "unpack"
  else
    let raw := file.take 16
    let word := fun (isLE : Bool) (i : Nat) => unpack_word isLE ((raw.drop (4 * i)).take 4)
    if word true 0 = twobitMagic then
      .ok ⟨true, word true 1, word true 2, word true 3⟩
    else if word false 0 = twobitMagic then
      .ok ⟨false, word false 1, word false 2, word false 3⟩
    else .error "Invalid 2bit file"

/-- Lines 179-187: the table-of-contents loop.  Per sequence: one
length byte, the name (a short `read` truncates without error, as in
Python), and a 4-byte offset (`struct.unpack` raises on a short read).
`toc[name] = offset` has dict semantics. -/
def read_twobit_toc (isLE : Bool) (file : ByteStr) :
    Nat → Nat → List (ByteStr × Nat) → Except String (List (ByteStr × Nat) × Nat)
  | pos, 0, toc => .ok (toc, pos)
  | pos, n + 1, toc =>
      let szRaw := file_read file pos 1
      if szRaw.length < 1 then .error "unpack"
      else
        let size := unpack_word isLE szRaw
        let name := file_read file (pos + 1) size
        let offRaw := file_read file (pos + 1 + name.length) 4
        if offRaw.length < 4 then .error "unpack"
        else
          read_twobit_toc isLE file (pos + 1 + name.length + 4) n
            (dict_insert toc name (unpack_word isLE offRaw))

/-- One record built by the 2bit extractor (lines 194-198). -/
structure TwoBitRecord where
  name : ByteStr
  length : Nat
  start : Nat
  end_ : Nat
deriving Repr, DecidableEq

/-- The byte string of the literal `str` key `'name'` used at line 194. -/
def nameLiteralKey : ByteStr := [110, 97, 109, 101]

/-- Lines 189-198: `for name in sorted(toc)`, seek to its offset, read a
4-byte length, and store the record — under the literal key `'name'`, as
written in the source (`refseqs['name'] = {...}`). -/
def twobit_build_refseqs (isLE : Bool) (file : ByteStr) (toc : List (ByteStr × Nat)) :
    Except String (List (ByteStr × TwoBitRecord)) :=
  ((toc.map Prod.fst).insertionSort (fun a b => bytesLe a b)).foldlM
    (fun refseqs name => do
      let offset := (dict_get toc name).getD 0
      let raw := file_read file offset 4
      if raw.length < 4 then .error "unpack"
      else
        let size := unpack_word isLE raw
        .ok (dict_insert refseqs nameLiteralKey ⟨name, size, 0, size⟩))
    []

/-- The in-memory mapping `export_twobit` builds and hands to
`write_refseqs_json` (lines 166-198; the `seq/` directory copy is a
side effect not touching the mapping). -/
def export_twobit_refseqs (file : ByteStr) :
    Except String (List (ByteStr × TwoBitRecord)) := do
  let h ← read_twobit_header file
  let (toc, _) ← read_twobit_toc h.isLE file 16 h.cnt []
  twobit_build_refseqs h.isLE file toc

/-! ## JsonFileStore and chunk file paths (json_file_store.py,
prepare_refseqs.py lines 321-345) -/

/-- One filesystem write: the path written and whether the content went
through `gzip.open` (compressed) or a plain `open`. -/
structure WriteEvent where
  path : String
  gzipped : Bool
deriving Repr, DecidableEq

/-- `JsonFileStore.__init__` line 32: the stored extension field,
`.jsonz` when compressing.  (No method of the class ever reads it.) -/
def jsonFileStore_ext (compress : Bool) : String :=
  if compress then ".jsonz" else ".json"

/-- `JsonFileStore.full_path` (lines 67-72): `os.path.join(outdir, path)`. -/
def full_path (outdir path : String) : String := outdir ++ "/" ++ path

/-- `JsonFileStore.modify` (lines 36-57) as its write events: first
`_write_htaccess` (lines 74-84: the `.htaccess` hint, only when
compressing and not yet written), then one plain-text `json.dump` to
`full_path(filename)` — the filename exactly as passed, via `open(fn, 'w')`.
Returns the events and the updated `htaccess_written` flag. -/
def modify_events (outdir : String) (compress : Bool) (htaccess_written : Bool)
    (filename : String) : List WriteEvent × Bool :=
  let pre := if compress && !htaccess_written then
      [⟨outdir ++ "/" ++ ".htaccess", false⟩] else []
  (pre ++ [⟨full_path outdir filename, false⟩], compress || htaccess_written)

/-- CRC-32 (zlib/`binascii.crc32`): one byte step, reflected polynomial
`0xEDB88320`. -/
def crc32_update_bit (crc : Nat) : Nat :=
  if crc % 2 = 1 then (crc / 2) ^^^ 0xEDB88320 else crc / 2

/-- Eight bit steps for one byte. -/
def crc32_update_byte (crc b : Nat) : Nat :=
  (List.range 8).foldl (fun c _ => crc32_update_bit c) (crc ^^^ (b % 256))

/-- `binascii.crc32(string) & 0xffffffff` (line 342). -/
def crc32 (s : ByteStr) : Nat :=
  (s.foldl crc32_update_byte 0xFFFFFFFF) ^^^ 0xFFFFFFFF

/-- Lowercase hex digit. -/
def hexDigit (n : Nat) : Char :=
  if n < 10 then Char.ofNat (48 + n) else Char.ofNat (87 + n)

/-- `'{:08x}'.format(crc)`: 8 lowercase hex digits. -/
def hex8 (n : Nat) : String :=
  String.mk ((List.range 8).map (fun i => hexDigit (n / 16 ^ (7 - i) % 16)))

/-- `_crc32_path` (lines 341-345): the 8 hex digits split into runs of 3
(`'6092e02d'` → `['609', '2e0', '2d']`). -/
def crc32_path (s : ByteStr) : List String :=
  let h := hex8 (crc32 s)
  [⟨h.toList.take 3⟩, ⟨(h.toList.drop 3).take 3⟩, ⟨h.toList.drop 6⟩]

/-- Render sequence-name bytes as text (`ref_info['name'].decode()`;
faithful for the ASCII names in play). -/
def decodeName (name : ByteStr) : String :=
  String.mk (name.map Char.ofNat)

/-- `_open_chunk_file` (lines 321-338) as a write event: the hashed
(`seq/<shard>/<name>-<n>.txt`) or flat (`seq/<name>/<n>.txt`) path, with a
`'z'` appended and gzip compression exactly when `compress` is set. -/
def open_chunk_event (out : String) (hashOpt compress : Bool) (name : ByteStr)
    (chunk_num : Nat) : WriteEvent :=
  let file := if hashOpt then
      out ++ "/seq/" ++ String.intercalate "/" (crc32_path name) ++ "/" ++
        decodeName name ++ "-" ++ toString chunk_num ++ ".txt"
    else
      out ++ "/seq/" ++ decodeName name ++ "/" ++ toString chunk_num ++ ".txt"
  if compress then ⟨file ++ "z", true⟩ else ⟨file, false⟩

/-! ## write_track_entry's file effects (prepare_refseqs.py lines 348-418,
json_file_store.py lines 59-65) -/

/-- `JsonFileStore.touch` (lines 59-65): `open(path, 'a')` — create the
file if absent, leave it alone otherwise.  `files` is the set of paths
existing under the output root. -/
def touch_effect (files : List String) (path : String) : List String :=
  if path ∈ files then files else files ++ [path]

/-- The files existing after `write_track_entry` (lines 348-418): with the
`seq` option off it returns at once (line 356-357) touching nothing;
otherwise it touches `'tracks.conf'` (line 364) and then
`json_store.modify('trackList.json', add_track)` writes `trackList.json`
unconditionally. -/
def write_track_entry_files (seqOpt : Bool) (files : List String) : List String :=
  if seqOpt then
    let files := touch_effect files "tracks.conf"
    if "trackList.json" ∈ files then files else files ++ ["trackList.json"]
  else files

/-! ## Lemmas about the chunk loop -/

theorem write_chunks_go_fuel_irrel (cs : Nat) (hcs : 0 < cs) :
    ∀ f₁ chunk num flush f₂, chunk.length < f₁ → chunk.length < f₂ →
      write_chunks_go cs f₁ chunk num flush = write_chunks_go cs f₂ chunk num flush := by
  intro f₁
  induction f₁ with
  | zero => intro chunk num flush f₂ h1 _; omega
  | succ f ih =>
      intro chunk num flush f₂ h1 h2
      obtain ⟨g, rfl⟩ : ∃ g, f₂ = g + 1 := ⟨f₂ - 1, by omega⟩
      simp only [write_chunks_go]
      by_cases hcond : (flush = true ∧ chunk ≠ []) ∨ cs ≤ chunk.length
      · have hz : ¬ cs = 0 := by omega
        have hlen : 0 < chunk.length := by
          rcases hcond with ⟨_, h⟩ | h
          · exact List.length_pos.mpr h
          · omega
        have hd : (chunk.drop cs).length = chunk.length - cs := List.length_drop cs chunk
        simp only [if_pos hcond, if_neg hz]
        rw [ih (chunk.drop cs) (num + 1) flush g (by omega) (by omega)]
      · simp only [if_neg hcond]

/-- The loop satisfies its intended recurrence (for positive chunk size). -/
theorem write_chunks_loop_unfold (cs : Nat) (hcs : 0 < cs) (chunk : ByteStr)
    (num : Nat) (flush : Bool) :
    write_chunks_loop cs chunk num flush =
      if (flush = true ∧ chunk ≠ []) ∨ cs ≤ chunk.length then
        ((num, chunk.take cs) ::
            (write_chunks_loop cs (chunk.drop cs) (num + 1) flush).1,
          (write_chunks_loop cs (chunk.drop cs) (num + 1) flush).2)
      else ([], chunk, num) := by
  unfold write_chunks_loop
  conv_lhs => rw [write_chunks_go]
  by_cases hcond : (flush = true ∧ chunk ≠ []) ∨ cs ≤ chunk.length
  · have hz : ¬ cs = 0 := by omega
    have hlen : 0 < chunk.length := by
      rcases hcond with ⟨_, h⟩ | h
      · exact List.length_pos.mpr h
      · omega
    have hd : (chunk.drop cs).length = chunk.length - cs := List.length_drop cs chunk
    simp only [if_pos hcond, if_neg hz]
    rw [write_chunks_go_fuel_irrel cs hcs chunk.length (chunk.drop cs) (num + 1) flush
      ((chunk.drop cs).length + 1) (by omega) (by omega)]
  · simp only [if_neg hcond]

/-- Full specification of the chunk loop: the emitted chunks concatenate
(with the remaining buffer) back to the input, chunk numbers advance one
at a time from `num`, without `flush` every emitted chunk has length
exactly `cs` and the remainder is shorter than `cs`, and with `flush` the
buffer is drained into non-empty chunks of length exactly `cs` except
possibly the last, which is no longer than `cs`. -/
theorem write_chunks_loop_spec (cs : Nat) (hcs : 0 < cs) :
    ∀ n chunk, chunk.length ≤ n → ∀ num flush,
      ∃ E rem, write_chunks_loop cs chunk num flush = (E, rem, num + E.length) ∧
        (E.map Prod.snd).flatten ++ rem = chunk ∧
        E.map Prod.fst = List.range' num E.length ∧
        (flush = false → (∀ e ∈ E, (e.2 : ByteStr).length = cs) ∧ rem.length < cs) ∧
        (flush = true → rem = [] ∧ (∀ e ∈ E, e.2.length ≤ cs ∧ e.2 ≠ []) ∧
          (∀ e ∈ E.dropLast, e.2.length = cs)) := by
  intro n
  induction n with
  | zero =>
      intro chunk hn num flush
      have hchunk : chunk = [] := List.length_eq_zero.mp (by omega)
      subst hchunk
      refine ⟨[], [], ?_, by simp, by simp, by simp [hcs], by simp⟩
      rw [write_chunks_loop_unfold cs hcs]
      simp [hcs, Nat.not_le.mpr hcs]
  | succ n ih =>
      intro chunk hn num flush
      rw [write_chunks_loop_unfold cs hcs]
      by_cases hcond : (flush = true ∧ chunk ≠ []) ∨ cs ≤ chunk.length
      · have hlen : 0 < chunk.length := by
          rcases hcond with ⟨_, h⟩ | h
          · exact List.length_pos.mpr h
          · omega
        have hdlen : (chunk.drop cs).length ≤ n := by
          have := List.length_drop cs chunk
          omega
        obtain ⟨E', rem', heq', hflat', hnum', hfalse', htrue'⟩ :=
          ih (chunk.drop cs) hdlen (num + 1) flush
        refine ⟨(num, chunk.take cs) :: E', rem', ?_, ?_, ?_, ?_, ?_⟩
        · simp only [if_pos hcond, heq', List.length_cons]
          refine Prod.ext rfl (Prod.ext rfl ?_)
          simp
          omega
        · simp only [List.map_cons, List.flatten_cons, List.append_assoc, hflat']
          exact List.take_append_drop cs chunk
        · simp only [List.map_cons, List.length_cons, List.range'_succ num E'.length 1,
            hnum']
        · intro hf
          subst hf
          obtain ⟨hE', hrem'⟩ := hfalse' rfl
          have hcsle : cs ≤ chunk.length := by
            rcases hcond with ⟨hfl, _⟩ | h
            · exact absurd hfl (by simp)
            · exact h
          refine ⟨?_, hrem'⟩
          intro e he
          rcases List.mem_cons.mp he with rfl | he'
          · simpa using Nat.min_eq_left hcsle
          · exact hE' e he'
        · intro hf
          subst hf
          obtain ⟨hrem', hE', hlast'⟩ := htrue' rfl
          refine ⟨hrem', ?_, ?_⟩
          · intro e he
            rcases List.mem_cons.mp he with rfl | he'
            · constructor
              · simp [Nat.min_le_left]
              · intro hnil
                have h0 : (chunk.take cs) = [] := hnil
                have h1 := congrArg List.length h0
                rw [List.length_take] at h1
                simp only [List.length_nil] at h1
                omega
            · exact hE' e he'
          · intro e he
            rcases List.eq_nil_or_concat E' with hE'nil | _
            · subst hE'nil
              simp at he
            · have hne : E' ≠ [] := by
                rename_i hconcat
                obtain ⟨l, a, rfl⟩ := hconcat
                simp
              rw [List.dropLast_cons_of_ne_nil hne] at he
              rcases List.mem_cons.mp he with rfl | he'
              · -- E' non-empty means the dropped part was non-empty,
                -- so the head slice is a full cs bytes
                have hjoin : (E'.map Prod.snd).flatten ++ rem' = chunk.drop cs := hflat'
                have hdropne : chunk.drop cs ≠ [] := by
                  obtain ⟨e₀, E'', rfl⟩ := List.exists_cons_of_ne_nil hne
                  have h₀ := hE' e₀ (by simp)
                  intro hd
                  rw [hd] at hjoin
                  have h3 := (List.append_eq_nil.mp hjoin).1
                  rcases e₀ with ⟨i, d⟩
                  simp only [List.map_cons, List.flatten_cons] at h3
                  exact h₀.2 (List.append_eq_nil.mp h3).1
                have : cs < chunk.length := by
                  by_contra hle
                  exact hdropne (List.drop_eq_nil_of_le (by omega))
                simpa using Nat.min_eq_left (by omega)
              · exact hlast' e he'
      · simp only [if_neg hcond]
        refine ⟨[], chunk, by simp, by simp, by simp, ?_, ?_⟩
        · intro hf
          subst hf
          refine ⟨by simp, ?_⟩
          have : ¬ cs ≤ chunk.length := fun h => hcond (Or.inr h)
          omega
        · intro hf
          subst hf
          have : chunk = [] := by
            by_contra hne
            exact hcond (Or.inl ⟨rfl, hne⟩)
          subst this
          simp

/-- Flushing a buffer already shorter than the chunk size emits it as a
single final chunk (or nothing if it is empty). -/
theorem write_chunks_loop_flush_small (cs : Nat) (hcs : 0 < cs) (chunk : ByteStr)
    (hlt : chunk.length < cs) (num : Nat) :
    write_chunks_loop cs chunk num true =
      if chunk = [] then ([], [], num) else ([(num, chunk)], [], num + 1) := by
  rw [write_chunks_loop_unfold cs hcs]
  by_cases hnil : chunk = []
  · subst hnil
    simp [Nat.not_le.mpr hcs]
  · have hcond : (true = true ∧ chunk ≠ []) ∨ cs ≤ chunk.length := Or.inl ⟨rfl, hnil⟩
    rw [if_pos hcond, if_neg hnil]
    have htake : chunk.take cs = chunk := List.take_of_length_le (by omega)
    have hdrop : chunk.drop cs = [] := List.drop_eq_nil_of_le (by omega)
    rw [htake, hdrop, write_chunks_loop_unfold cs hcs]
    simp [Nat.not_le.mpr hcs]

/-- Splitting lemma: running the loop without `flush` on `buf` and then
(with any `flush`) on the remainder extended by `t` is the same as
running it on `buf ++ t` directly — incremental chunking agrees with
batch chunking. -/
theorem write_chunks_loop_append (cs : Nat) (hcs : 0 < cs) :
    ∀ n buf, buf.length ≤ n → ∀ num t flush,
      write_chunks_loop cs (buf ++ t) num flush =
        ((write_chunks_loop cs buf num false).1 ++
            (write_chunks_loop cs ((write_chunks_loop cs buf num false).2.1 ++ t)
              (write_chunks_loop cs buf num false).2.2 flush).1,
          (write_chunks_loop cs ((write_chunks_loop cs buf num false).2.1 ++ t)
            (write_chunks_loop cs buf num false).2.2 flush).2) := by
  intro n
  induction n with
  | zero =>
      intro buf hn num t flush
      have hbuf : buf = [] := List.length_eq_zero.mp (by omega)
      subst hbuf
      rw [write_chunks_loop_unfold cs hcs ([] : ByteStr)]
      simp [Nat.not_le.mpr hcs]
  | succ n ih =>
      intro buf hn num t flush
      by_cases hge : cs ≤ buf.length
      · have hcond1 : (false = true ∧ buf ≠ []) ∨ cs ≤ buf.length := Or.inr hge
        have hcond2 : (flush = true ∧ buf ++ t ≠ []) ∨ cs ≤ (buf ++ t).length := by
          right
          rw [List.length_append]
          omega
        rw [write_chunks_loop_unfold cs hcs buf num false, if_pos hcond1]
        rw [write_chunks_loop_unfold cs hcs (buf ++ t) num flush, if_pos hcond2]
        rw [List.take_append_of_le_length hge, List.drop_append_of_le_length hge]
        have hdlen : (buf.drop cs).length ≤ n := by
          have := List.length_drop cs buf
          omega
        rw [ih (buf.drop cs) hdlen (num + 1) t flush]
        simp
      · rw [write_chunks_loop_unfold cs hcs buf num false]
        have hcond1 : ¬ ((false = true ∧ buf ≠ []) ∨ cs ≤ buf.length) := by
          rintro (⟨h, -⟩ | h)
          · simp at h
          · omega
        rw [if_neg hcond1]
        simp

/-! ## Lemmas about the FASTA extractor run -/

/-- The segmentation of a stream with an open record: the head segment is
that record with some further body `fb`, and neither `fb` nor the later
segments depend on the body or description accumulated so far. -/
theorem acceptedSegmentsAux_some (opts : FastaOpts) :
    ∀ (lines : List ByteStr) (name : ByteStr),
      ∃ fb rest, ∀ d b,
        acceptedSegmentsAux opts (some ⟨name, d, b⟩) lines = ⟨name, d, b ++ fb⟩ :: rest := by
  intro lines
  induction lines with
  | nil =>
      intro name
      exact ⟨[], [], fun d b => by simp [acceptedSegmentsAux]⟩
  | cons l ls ih =>
      intro name
      cases hh : fasta_header_match l with
      | some nd =>
          refine ⟨[], (if acceptName opts nd.1 then
            acceptedSegmentsAux opts (some ⟨nd.1, nd.2, []⟩) ls
          else acceptedSegmentsAux opts none ls), fun d b => ?_⟩
          simp [acceptedSegmentsAux, hh]
      | none =>
          obtain ⟨fb, rest, hfr⟩ := ih name
          refine ⟨l :: fb, rest, fun d b => ?_⟩
          simp only [acceptedSegmentsAux, hh]
          rw [hfr d (b ++ [l])]
          simp

theorem export_from_nil (opts : FastaOpts) (st : ExpState) :
    export_from opts st [] =
      match final_flush opts st with
      | .error e => .error e
      | .ok extra => .ok ⟨(closeCurr st).refseqs, st.original_order, st.files ++ extra⟩ := by
  cases h : final_flush opts st <;>
    simp only [export_from, List.foldlM_nil, pure_bind] <;> rw [h] <;> rfl

theorem export_from_cons (opts : FastaOpts) (st : ExpState) (l : ByteStr)
    (ls : List ByteStr) :
    export_from opts st (l :: ls) =
      match export_step opts st l with
      | .error e => .error e
      | .ok st₁ => export_from opts st₁ ls := by
  cases h : export_step opts st l with
  | error e =>
      simp only [export_from, List.foldlM_cons, h]
      rfl
  | ok st₁ =>
      simp only [export_from, List.foldlM_cons, h]
      rfl

theorem tagFiles_append (name : ByteStr) (E₁ E₂ : List (Nat × ByteStr)) :
    tagFiles name (E₁ ++ E₂) = tagFiles name E₁ ++ tagFiles name E₂ :=
  List.map_append ..

theorem insertRecords_cons (cs : Nat) (s : FastaSeg) (segs : List FastaSeg)
    (m : List (PyKey × CurrSeq)) :
    insertRecords cs (s :: segs) m =
      insertRecords cs segs (dict_insert m (PyKey.str s.name) (segRecord cs s)) := rfl

theorem segsFiles_cons (cs : Nat) (s : FastaSeg) (segs : List FastaSeg) :
    segsFiles cs (s :: segs) = segChunkFiles cs s ++ segsFiles cs segs := by
  simp [segsFiles]

/-- Central description of an `export_fastas` run: from a coherent state
the line loop plus final flush succeeds, and its mapping, recorded order
and chunk-file log are exactly those of the accepted segments — each
segment's bases chunked by one batch flush numbered from 0 (continuing
from the loop state for a segment already open on entry). -/
theorem export_from_run (opts : FastaOpts) (hseq : opts.seq = true)
    (hcs : 0 < opts.chunk_size) :
    ∀ (lines : List ByteStr) (st : ExpState),
      (st.curr = none → st.curr_chunk = []) →
      (∀ c, st.curr = some c → st.curr_chunk.length < opts.chunk_size) →
      ∃ out, export_from opts st lines = .ok out ∧
        (st.curr = none →
          out.refseqs =
            insertRecords opts.chunk_size (acceptedSegments opts lines) st.refseqs ∧
          out.original_order = st.original_order ++
            (if opts.sort then []
             else (acceptedSegments opts lines).map (fun s => PyKey.bytes s.name)) ∧
          out.files = st.files ++ segsFiles opts.chunk_size (acceptedSegments opts lines)) ∧
        (∀ c, st.curr = some c →
          ∃ fb rest,
            acceptedSegmentsAux opts (some ⟨c.name, [], []⟩) lines =
              ⟨c.name, [], fb⟩ :: rest ∧
            out.refseqs = insertRecords opts.chunk_size rest
              (dict_insert st.refseqs (PyKey.str c.name)
                { c with end_ := c.end_ + (((fb.map stripWS).flatten).length : Int) }) ∧
            out.original_order = st.original_order ++
              (if opts.sort then [] else rest.map (fun s => PyKey.bytes s.name)) ∧
            out.files = st.files ++
              tagFiles c.name (write_chunks_loop opts.chunk_size
                (st.curr_chunk ++ (fb.map stripWS).flatten) st.chunk_num true).1 ++
              segsFiles opts.chunk_size rest) := by
  intro lines
  induction lines with
  | nil =>
      intro st hA hB
      cases hcurr : st.curr with
      | none =>
          have hchunk : st.curr_chunk = [] := hA hcurr
          refine ⟨⟨st.refseqs, st.original_order, st.files⟩, ?_, ?_, ?_⟩
          · rw [export_from_nil]
            simp [final_flush, hseq, hcurr, hchunk, closeCurr]
          · intro _
            simp [acceptedSegments, acceptedSegmentsAux, insertRecords, segsFiles]
          · intro c hc
            exact Option.noConfusion hc
      | some c =>
          refine ⟨⟨dict_insert st.refseqs (PyKey.str c.name) c, st.original_order,
            st.files ++ tagFiles c.name (write_chunks_loop opts.chunk_size
              st.curr_chunk st.chunk_num true).1⟩, ?_, ?_, ?_⟩
          · rw [export_from_nil]
            simp [final_flush, hseq, hcurr, closeCurr]
          · intro h
            exact Option.noConfusion h
          · intro c' hc'
            injection hc' with hc''
            subst hc''
            refine ⟨[], [], by simp [acceptedSegmentsAux], ?_, by simp, ?_⟩
            · simp [insertRecords]
            · simp [segsFiles]
  | cons l ls ih =>
      intro st hA hB
      rw [export_from_cons]
      cases hh : fasta_header_match l with
      | some nd =>
          obtain ⟨name, desc⟩ := nd
          cases hcurr : st.curr with
          | none =>
              have hchunk : st.curr_chunk = [] := hA hcurr
              have hstep : export_step opts st l = .ok (if acceptName opts name then
                  { st with
                    chunk_num := 0
                    curr_chunk := []
                    curr := some ⟨name, 0, 0, opts.chunk_size,
                      if desc.isEmpty then none else some desc⟩
                    original_order := if opts.sort then st.original_order
                      else st.original_order ++ [PyKey.bytes name] }
                else { st with curr := none }) := by
                by_cases hacc : acceptName opts name <;>
                  simp [export_step, hh, hcurr, closeCurr, hacc]
              rw [hstep]
              by_cases hacc : acceptName opts name
              · rw [if_pos hacc]
                set c₁ : CurrSeq := ⟨name, 0, 0, opts.chunk_size,
                  if desc.isEmpty then none else some desc⟩ with hc₁
                obtain ⟨out, hrun, -, hBconc⟩ := ih
                  { st with
                    chunk_num := 0
                    curr_chunk := []
                    curr := some c₁
                    original_order := if opts.sort then st.original_order
                      else st.original_order ++ [PyKey.bytes name] }
                  (by intro h; simp at h) (by intro c' hc'; simp at hc'; simp [← hc', hcs])
                obtain ⟨fb, rest, hseg, hrefs, hord, hfiles⟩ := hBconc c₁ rfl
                obtain ⟨FB, REST, hfr⟩ := acceptedSegmentsAux_some opts ls name
                have hfb : fb = FB ∧ rest = REST := by
                  have h1 := hfr ([] : ByteStr) ([] : List ByteStr)
                  simp only [List.nil_append] at h1
                  rw [hseg] at h1
                  have h2 := List.cons.injEq .. |>.mp h1
                  exact ⟨(FastaSeg.mk.injEq .. |>.mp h2.1).2.2, h2.2⟩
                obtain ⟨hfb1, hfb2⟩ := hfb
                subst hfb1
                subst hfb2
                have hsegs : acceptedSegments opts (l :: ls) = ⟨name, desc, fb⟩ :: rest := by
                  simp only [acceptedSegments, acceptedSegmentsAux, hh, Option.toList,
                    if_pos hacc, List.nil_append]
                  have := hfr desc ([] : List ByteStr)
                  simpa using this
                refine ⟨out, hrun, ?_, ?_⟩
                · intro _
                  rw [hsegs]
                  refine ⟨?_, ?_, ?_⟩
                  · rw [insertRecords_cons, hrefs]
                    simp [segRecord, segBases, hc₁]
                  · rw [hord]
                    cases hsort : opts.sort <;> simp
                  · rw [hfiles, segsFiles_cons]
                    simp [segChunkFiles, segBases, hc₁]
                · intro c' hc'
                  exact Option.noConfusion hc'
              · rw [if_neg hacc]
                obtain ⟨out, hrun, hAconc, -⟩ := ih { st with curr := none }
                  (by intro _; simpa using hchunk) (by intro c' hc'; simp at hc')
                have hsegs : acceptedSegments opts (l :: ls) = acceptedSegments opts ls := by
                  simp [acceptedSegments, acceptedSegmentsAux, hh, if_neg hacc]
                obtain ⟨hrefs, hord, hfiles⟩ := hAconc rfl
                refine ⟨out, hrun, ?_, ?_⟩
                · intro _
                  rw [hsegs]
                  exact ⟨hrefs, hord, hfiles⟩
                · intro c' hc'
                  exact Option.noConfusion hc'
          | some c =>
              have hlt := hB c hcurr
              obtain ⟨E₀, rem₀, heq₀, hflat₀, hnums₀, hfalse₀, htrue₀⟩ :=
                write_chunks_loop_spec opts.chunk_size hcs st.curr_chunk.length
                  st.curr_chunk le_rfl st.chunk_num true
              obtain ⟨hrem₀, -, -⟩ := htrue₀ rfl
              subst hrem₀
              have hstep : export_step opts st l = .ok (if acceptName opts name then
                  { st with
                    refseqs := dict_insert st.refseqs (PyKey.str c.name) c,
                    files := st.files ++ tagFiles c.name E₀,
                    chunk_num := 0, curr_chunk := [],
                    curr := some ⟨name, 0, 0, opts.chunk_size,
                      if desc.isEmpty then none else some desc⟩,
                    original_order := if opts.sort then st.original_order
                      else st.original_order ++ [PyKey.bytes name] }
                else
                  { st with
                    refseqs := dict_insert st.refseqs (PyKey.str c.name) c,
                    files := st.files ++ tagFiles c.name E₀,
                    chunk_num := st.chunk_num + E₀.length, curr_chunk := [],
                    curr := none }) := by
                by_cases hacc : acceptName opts name <;>
                  · simp only [export_step, hh, hcurr, write_fasta_chunks, hseq, if_true,
                      heq₀]
                    simp [closeCurr, hacc]
              rw [hstep]
              by_cases hacc : acceptName opts name
              · rw [if_pos hacc]
                set c₁ : CurrSeq := ⟨name, 0, 0, opts.chunk_size,
                  if desc.isEmpty then none else some desc⟩ with hc₁
                obtain ⟨out, hrun, -, hBconc⟩ := ih
                  { st with
                    refseqs := dict_insert st.refseqs (PyKey.str c.name) c,
                    files := st.files ++ tagFiles c.name E₀,
                    chunk_num := 0, curr_chunk := [], curr := some c₁,
                    original_order := if opts.sort then st.original_order
                      else st.original_order ++ [PyKey.bytes name] }
                  (by intro h; simp at h) (by intro c' hc'; simp at hc'; simp [← hc', hcs])
                obtain ⟨fb, rest, hseg, hrefs, hord, hfiles⟩ := hBconc c₁ rfl
                obtain ⟨FB, REST, hfr⟩ := acceptedSegmentsAux_some opts ls name
                have hfb : fb = FB ∧ rest = REST := by
                  have h1 := hfr ([] : ByteStr) ([] : List ByteStr)
                  simp only [List.nil_append] at h1
                  rw [hseg] at h1
                  have h2 := List.cons.injEq .. |>.mp h1
                  exact ⟨(FastaSeg.mk.injEq .. |>.mp h2.1).2.2, h2.2⟩
                obtain ⟨hfb1, hfb2⟩ := hfb
                subst hfb1
                subst hfb2
                refine ⟨out, hrun, ?_, ?_⟩
                · intro h
                  exact Option.noConfusion h
                · intro c' hc'
                  injection hc' with hc''
                  subst hc''
                  refine ⟨[], ⟨name, desc, fb⟩ :: rest, ?_, ?_, ?_, ?_⟩
                  · simp only [acceptedSegmentsAux, hh, Option.toList, if_pos hacc]
                    have := hfr desc ([] : List ByteStr)
                    simpa using this
                  · rw [insertRecords_cons, hrefs]
                    simp [segRecord, segBases, hc₁]
                  · rw [hord]
                    cases hsort : opts.sort <;> simp
                  · rw [hfiles, segsFiles_cons]
                    simp only [List.map_nil, List.flatten_nil, List.append_nil, heq₀]
                    simp [segChunkFiles, segBases, hc₁, tagFiles]
              · rw [if_neg hacc]
                obtain ⟨out, hrun, hAconc, -⟩ := ih
                  { st with
                    refseqs := dict_insert st.refseqs (PyKey.str c.name) c,
                    files := st.files ++ tagFiles c.name E₀,
                    chunk_num := st.chunk_num + E₀.length, curr_chunk := [],
                    curr := none }
                  (by intro _; rfl) (by intro c' hc'; simp at hc')
                obtain ⟨hrefs, hord, hfiles⟩ := hAconc rfl
                refine ⟨out, hrun, ?_, ?_⟩
                · intro h
                  exact Option.noConfusion h
                · intro c' hc'
                  injection hc' with hc''
                  subst hc''
                  refine ⟨[], acceptedSegments opts ls, ?_, ?_, ?_, ?_⟩
                  · simp [acceptedSegmentsAux, hh, if_neg hacc, acceptedSegments]
                  · rw [hrefs]
                    simp [acceptedSegments]
                  · rw [hord]
                  · rw [hfiles]
                    simp only [List.map_nil, List.flatten_nil, List.append_nil, heq₀]
      | none =>
          cases hcurr : st.curr with
          | none =>
              have hstep : export_step opts st l = .ok st := by
                simp [export_step, hh, hcurr]
              rw [hstep]
              obtain ⟨out, hrun, hAconc, -⟩ := ih st hA hB
              obtain ⟨hrefs, hord, hfiles⟩ := hAconc hcurr
              have hsegs : acceptedSegments opts (l :: ls) = acceptedSegments opts ls := by
                simp [acceptedSegments, acceptedSegmentsAux, hh]
              refine ⟨out, hrun, ?_, ?_⟩
              · intro _
                rw [hsegs]
                exact ⟨hrefs, hord, hfiles⟩
              · intro c' hc'
                exact Option.noConfusion hc'
          | some c =>
              have hlt := hB c hcurr
              by_cases hstrip : stripWS l = []
              · have hstep : export_step opts st l = .ok st := by
                  simp [export_step, hh, hcurr, hstrip]
                rw [hstep]
                obtain ⟨out, hrun, -, hBconc⟩ := ih st hA hB
                obtain ⟨fb, rest, hseg, hrefs, hord, hfiles⟩ := hBconc c hcurr
                obtain ⟨FB, REST, hfr⟩ := acceptedSegmentsAux_some opts ls c.name
                have hfb : fb = FB ∧ rest = REST := by
                  have h1 := hfr ([] : ByteStr) ([] : List ByteStr)
                  simp only [List.nil_append] at h1
                  rw [hseg] at h1
                  have h2 := List.cons.injEq .. |>.mp h1
                  exact ⟨(FastaSeg.mk.injEq .. |>.mp h2.1).2.2, h2.2⟩
                obtain ⟨hfb1, hfb2⟩ := hfb
                subst hfb1
                subst hfb2
                refine ⟨out, hrun, ?_, ?_⟩
                · intro h
                  exact Option.noConfusion h
                · intro c' hc'
                  injection hc' with hc''
                  subst hc''
                  refine ⟨l :: fb, rest, ?_, ?_, ?_, ?_⟩
                  · simp only [acceptedSegmentsAux, hh, hcurr]
                    have := hfr ([] : ByteStr) [l]
                    simpa using this
                  · rw [hrefs]
                    simp [hstrip]
                  · rw [hord]
                  · rw [hfiles]
                    simp [hstrip]
              · have hst : stripWS l ≠ [] := hstrip
                obtain ⟨E₁, rem₁, heq₁, hflat₁, hnums₁, hfalse₁, -⟩ :=
                  write_chunks_loop_spec opts.chunk_size hcs
                    (st.curr_chunk ++ stripWS l).length (st.curr_chunk ++ stripWS l)
                    le_rfl st.chunk_num false
                obtain ⟨hEcs₁, hrem₁⟩ := hfalse₁ rfl
                set c₁ : CurrSeq :=
                  { c with end_ := c.end_ + ((stripWS l).length : Int) } with hc₁
                have hstep : export_step opts st l = .ok
                    { st with
                      curr := some c₁
                      files := st.files ++ tagFiles c.name E₁
                      curr_chunk := rem₁
                      chunk_num := st.chunk_num + E₁.length } := by
                  simp only [export_step, hh, hcurr, write_fasta_chunks, hseq, if_true,
                    heq₁, hc₁]
                  simp [hst]
                rw [hstep]
                obtain ⟨out, hrun, -, hBconc⟩ := ih
                  { st with
                    curr := some c₁
                    files := st.files ++ tagFiles c.name E₁
                    curr_chunk := rem₁
                    chunk_num := st.chunk_num + E₁.length }
                  (by intro h; simp at h)
                  (by intro c' hc'; simp at hc'; simpa [← hc'] using hrem₁)
                obtain ⟨fb, rest, hseg, hrefs, hord, hfiles⟩ := hBconc c₁ rfl
                obtain ⟨FB, REST, hfr⟩ := acceptedSegmentsAux_some opts ls c.name
                have hname₁ : c₁.name = c.name := by simp [hc₁]
                have hfb : fb = FB ∧ rest = REST := by
                  have h1 := hfr ([] : ByteStr) ([] : List ByteStr)
                  simp only [List.nil_append] at h1
                  rw [hname₁] at hseg
                  rw [hseg] at h1
                  have h2 := List.cons.injEq .. |>.mp h1
                  exact ⟨(FastaSeg.mk.injEq .. |>.mp h2.1).2.2, h2.2⟩
                obtain ⟨hfb1, hfb2⟩ := hfb
                subst hfb1
                subst hfb2
                refine ⟨out, hrun, ?_, ?_⟩
                · intro h
                  exact Option.noConfusion h
                · intro c' hc'
                  injection hc' with hc''
                  subst hc''
                  refine ⟨l :: fb, rest, ?_, ?_, ?_, ?_⟩
                  · simp only [acceptedSegmentsAux, hh, hcurr]
                    have := hfr ([] : ByteStr) [l]
                    simpa using this
                  · rw [hrefs]
                    simp only [hname₁, hc₁]
                    congr 2
                    simp only [List.map_cons, List.flatten_cons, List.length_append,
                      Nat.cast_add]
                    congr 1
                    ring
                  · rw [hord]
                  · rw [hfiles]
                    have happ := write_chunks_loop_append opts.chunk_size hcs
                      (st.curr_chunk ++ stripWS l).length (st.curr_chunk ++ stripWS l)
                      le_rfl st.chunk_num ((fb.map stripWS).flatten) true
                    rw [heq₁] at happ
                    simp only [List.map_cons, List.flatten_cons, hname₁]
                    rw [← List.append_assoc st.curr_chunk (stripWS l)]
                    rw [happ]
                    simp [tagFiles_append, tagFiles]

theorem tagFiles_data (n : ByteStr) (E : List (Nat × ByteStr)) :
    (tagFiles n E).map (fun f => f.2.2) = E.map Prod.snd := by
  simp [tagFiles]

theorem tagFiles_nums (n : ByteStr) (E : List (Nat × ByteStr)) :
    (tagFiles n E).map (fun f => f.2.1) = E.map Prod.fst := by
  simp [tagFiles]

theorem tagFiles_length (n : ByteStr) (E : List (Nat × ByteStr)) :
    (tagFiles n E).length = E.length := by
  simp [tagFiles]

theorem mem_tagFiles_name (n : ByteStr) (E : List (Nat × ByteStr))
    (f : ByteStr × Nat × ByteStr) (hf : f ∈ tagFiles n E) : f.1 = n := by
  simp only [tagFiles, List.mem_map] at hf
  obtain ⟨e, -, rfl⟩ := hf
  rfl

theorem mem_segsFiles_name (cs : Nat) (segs : List FastaSeg)
    (f : ByteStr × Nat × ByteStr) (hf : f ∈ segsFiles cs segs) :
    f.1 ∈ segs.map FastaSeg.name := by
  induction segs with
  | nil => simp [segsFiles] at hf
  | cons t ts ih =>
      rw [segsFiles_cons] at hf
      rcases List.mem_append.mp hf with h | h
      · exact List.mem_map.mpr ⟨t, List.mem_cons_self .., (mem_tagFiles_name _ _ _ h).symm⟩
      · simp only [List.map_cons, List.mem_cons]
        exact Or.inr (by simpa using ih h)

/-- With pairwise-distinct record names, the chunk files carrying a given
record's name are exactly that record's chunk files. -/
theorem segsFiles_filter_of_nodup (cs : Nat) (segs : List FastaSeg)
    (hnodup : (segs.map FastaSeg.name).Nodup) (s : FastaSeg) (hs : s ∈ segs) :
    (segsFiles cs segs).filter (fun f => f.1 = s.name) = segChunkFiles cs s := by
  induction segs with
  | nil => cases hs
  | cons t ts ih =>
      rw [segsFiles_cons, List.filter_append]
      rw [List.map_cons, List.nodup_cons] at hnodup
      rcases List.mem_cons.mp hs with rfl | hs'
      · have h1 : (segChunkFiles cs s).filter (fun f => f.1 = s.name) =
            segChunkFiles cs s := by
          apply List.filter_eq_self.mpr
          intro f hf
          simpa using mem_tagFiles_name _ _ _ hf
        have h2 : (segsFiles cs ts).filter (fun f => f.1 = s.name) = [] := by
          rw [List.filter_eq_nil_iff]
          intro f hf
          have := mem_segsFiles_name cs ts f hf
          simp only [decide_eq_true_eq]
          intro he
          exact hnodup.1 (he ▸ this)
        rw [h1, h2, List.append_nil]
      · have hname : t.name ≠ s.name := by
          intro he
          exact hnodup.1 (he ▸ List.mem_map.mpr ⟨s, hs', rfl⟩)
        have h1 : (segChunkFiles cs t).filter (fun f => f.1 = s.name) = [] := by
          rw [List.filter_eq_nil_iff]
          intro f hf
          have := mem_tagFiles_name _ _ _ hf
          simp only [decide_eq_true_eq]
          intro he
          exact hname (by rw [← this, he])
        rw [h1, List.nil_append]
        exact ih hnodup.2 hs'

/-- C1: For every FASTA input (plain, gzipped, or GFF-embedded — all
presenting the same line stream) and every sequence name kept by the run
(with distinct names, the documented invariant), the run succeeds, and
for each kept record: concatenating its emitted chunk files in log order
(which is chunk-number order 0, 1, 2, …) reproduces exactly its
whitespace-stripped bases; every chunk except possibly the last has
length exactly the configured chunk size, and every chunk is non-empty
and no longer than the chunk size. -/
theorem C1_fasta_chunk_roundtrip (opts : FastaOpts) (lines : List ByteStr)
    (hseq : opts.seq = true) (hcs : 0 < opts.chunk_size)
    (hnodup : ((acceptedSegments opts lines).map FastaSeg.name).Nodup) :
    ∃ out, export_fastas_model opts lines = .ok out ∧
      ∀ s ∈ acceptedSegments opts lines,
        (((out.files.filter (fun f => f.1 = s.name)).map (fun f => f.2.2)).flatten
            = segBases s) ∧
        ((out.files.filter (fun f => f.1 = s.name)).map (fun f => f.2.1)
            = List.range (out.files.filter (fun f => f.1 = s.name)).length) ∧
        (∀ f ∈ (out.files.filter (fun f => f.1 = s.name)).dropLast,
            f.2.2.length = opts.chunk_size) ∧
        (∀ f ∈ out.files.filter (fun f => f.1 = s.name),
            f.2.2.length ≤ opts.chunk_size ∧ f.2.2 ≠ []) := by
  obtain ⟨out, hrun, hAconc, -⟩ := export_from_run opts hseq hcs lines
    ⟨[], [], none, [], 0, []⟩ (fun _ => rfl) (fun c hc => Option.noConfusion hc)
  obtain ⟨-, -, hfiles⟩ := hAconc rfl
  refine ⟨out, hrun, ?_⟩
  intro s hs
  have hfilt : out.files.filter (fun f => f.1 = s.name) = segChunkFiles opts.chunk_size s := by
    rw [hfiles]
    simp only [List.nil_append]
    exact segsFiles_filter_of_nodup _ _ hnodup s hs
  rw [hfilt]
  obtain ⟨E, rem, heq, hflat, hnums, -, htrue⟩ := write_chunks_loop_spec opts.chunk_size
    hcs (segBases s).length (segBases s) le_rfl 0 true
  obtain ⟨hrem, hbnds, hlast⟩ := htrue rfl
  subst hrem
  rw [List.append_nil] at hflat
  have hsg : segChunkFiles opts.chunk_size s = tagFiles s.name E := by
    rw [segChunkFiles, heq]
  rw [hsg]
  refine ⟨?_, ?_, ?_, ?_⟩
  · rw [tagFiles_data, hflat]
  · rw [tagFiles_nums, hnums, tagFiles_length, List.range_eq_range']
  · intro f hf
    rw [tagFiles, ← List.map_dropLast] at hf
    obtain ⟨e, he, rfl⟩ := List.mem_map.mp hf
    exact hlast e he
  · intro f hf
    simp only [tagFiles, List.mem_map] at hf
    obtain ⟨e, he, rfl⟩ := hf
    exact hbnds e he

/-! ## The merge semantics of the persisted JSON documents -/

theorem foldl_cond_remove {α : Type} [DecidableEq α] (P : α → Prop) [DecidablePred P] :
    ∀ (l acc : List α),
      l.foldl (fun a s => if P s then list_remove a s else a) acc =
        (l.filter (fun s => P s)).foldl list_remove acc := by
  intro l
  induction l with
  | nil => intro acc; rfl
  | cons a l ih =>
      intro acc
      by_cases h : P a <;> simp only [List.foldl_cons, List.filter_cons, h] <;> simp [h, ih]

theorem foldl_remove_not_mem {α : Type} [DecidableEq α] (P : α → Prop) [DecidablePred P]
    (a : α) (ha : ¬ P a) :
    ∀ (xs l : List α), (∀ x ∈ xs, P x) →
      xs.foldl list_remove (a :: l) = a :: xs.foldl list_remove l := by
  intro xs
  induction xs with
  | nil => intro l _; rfl
  | cons x xs ih =>
      intro l hmem
      have hax : ¬ a = x := fun h => ha (h ▸ hmem x (by simp))
      simp only [List.foldl_cons, list_remove, if_neg hax]
      exact ih _ (fun y hy => hmem y (by simp [hy]))

theorem foldl_remove_filter {α : Type} [DecidableEq α] (P : α → Prop) [DecidablePred P] :
    ∀ l : List α, (l.filter (fun s => P s)).foldl list_remove l =
      l.filter (fun s => ¬ P s) := by
  intro l
  induction l with
  | nil => rfl
  | cons a l ih =>
      by_cases h : P a
      · rw [List.filter_cons_of_pos (by simpa using h),
          List.filter_cons_of_neg (by simpa using h)]
        simp only [List.foldl_cons, list_remove, if_pos rfl]
        exact ih
      · rw [List.filter_cons_of_neg (by simpa using h),
          List.filter_cons_of_pos (by simpa using h)]
        rw [foldl_remove_not_mem P a h _ l
          (fun x hx => by simpa using (List.mem_filter.mp hx).2)]
        rw [ih]

/-- The removal pass of `write_refseqs_json` (iterate over a copy,
`data.remove` each record whose name is a key being re-written) removes
exactly the records with such names, preserving the rest in order. -/
theorem prune_stale_eq_filter {ν α : Type} [DecidableEq ν] [DecidableEq α]
    (getName : α → ν) (keys : List ν) (data : List α) :
    prune_stale getName keys data = data.filter (fun s => ¬ getName s ∈ keys) := by
  rw [prune_stale, foldl_cond_remove (fun s => getName s ∈ keys) data data,
    foldl_remove_filter (fun s => getName s ∈ keys) data]

theorem replace_track_decomp {β : Type} (labelOf : β → String) (track : β) (name : String) :
    ∀ ts : List β, (∃ t ∈ ts, labelOf t = name) →
      ∃ l₁ x l₂, ts = l₁ ++ x :: l₂ ∧ (∀ y ∈ l₁, labelOf y ≠ name) ∧ labelOf x = name ∧
        replace_track labelOf track name ts = l₁ ++ track :: l₂ := by
  intro ts
  induction ts with
  | nil => rintro ⟨t, ht, -⟩; cases ht
  | cons t ts ih =>
      rintro ⟨u, hu, hul⟩
      by_cases h : labelOf t = name
      · exact ⟨[], t, ts, rfl, by simp, h, by simp [replace_track, h]⟩
      · have hu' : u ∈ ts := by
          rcases List.mem_cons.mp hu with rfl | h'
          · exact absurd hul h
          · exact h'
        obtain ⟨l₁, x, l₂, hts, hl₁, hx, hrep⟩ := ih ⟨u, hu', hul⟩
        refine ⟨t :: l₁, x, l₂, by rw [hts]; rfl, ?_, hx, ?_⟩
        · intro y hy
          rcases List.mem_cons.mp hy with rfl | hy'
          · exact h
          · exact hl₁ y hy'
        · simp [replace_track, h, hrep]

theorem replace_track_idem {β : Type} (labelOf : β → String) (track : β) (name : String)
    (hlab : labelOf track = name) :
    ∀ ts : List β, replace_track labelOf track name (replace_track labelOf track name ts) =
      replace_track labelOf track name ts := by
  intro ts
  induction ts with
  | nil => rfl
  | cons t ts ih =>
      by_cases h : labelOf t = name
      · simp [replace_track, h, hlab]
      · simp [replace_track, h, ih]

/-! ## Evaluations exhibiting the source defects, and the remaining claims -/

/-- C3: evaluation at the failing input.  Merging a track labelled
`"DNA"` into a persisted non-empty track list that has no entry with that
label leaves the list unchanged: the loop of lines 413-416 finds no match
and the function returns the document as loaded, never appending.  The
entry is silently dropped, contradicting the claimed append. -/
theorem C3_no_append_on_missing_label :
    add_track (fun t => t) "DNA" "DNA" (some ⟨1, ["other"]⟩) =
      ⟨1, ["other"]⟩ := by decide

/-- C4: evaluation at the failing input.  A valid little-endian 2bit file
declaring two sequences `chr1` (length 100 at offset 34) and `chr2`
(length 200 at offset 38) yields a mapping with a single entry stored
under the literal key `'name'` (line 194: `refseqs['name'] = {...}`),
holding only the last-processed sequence `chr2` — not one record per
sequence keyed by its true name. -/
theorem C4_twobit_literal_name_key :
    export_twobit_refseqs
      [0x43, 0x27, 0x41, 0x1A, 0, 0, 0, 0, 2, 0, 0, 0, 0, 0, 0, 0,
       4, 99, 104, 114, 49, 34, 0, 0, 0,
       4, 99, 104, 114, 50, 38, 0, 0, 0,
       100, 0, 0, 0, 200, 0, 0, 0] =
    .ok [([110, 97, 109, 101], ⟨[99, 104, 114, 50], 200, 0, 200⟩)] := by rfl

/-- C2: evaluation at the failing input.  A 2bit conversion run builds
its mapping under the literal key `'name'` (line 194), so on a second
identical run against the same output directory the removal test
`seq['name'] in refseqs` of line 435 compares the persisted record's
actual name (`chr2`) against the key `'name'` and never fires: the prior
record is not removed and the re-run appends a duplicate instead of
reproducing the first run's content.  The third conjunct shows the merge
does deduplicate when the mapping is keyed by the record names, isolating
the line-194 keying as the cause. -/
theorem C2_twobit_rerun_duplicates :
    add_refs TwoBitRecord.name bytesLe
        [(nameLiteralKey, ⟨[99, 104, 114, 50], 200, 0, 200⟩)] [] none =
      .ok [⟨[99, 104, 114, 50], 200, 0, 200⟩] ∧
    add_refs TwoBitRecord.name bytesLe
        [(nameLiteralKey, ⟨[99, 104, 114, 50], 200, 0, 200⟩)] []
        (some [⟨[99, 104, 114, 50], 200, 0, 200⟩]) =
      .ok [⟨[99, 104, 114, 50], 200, 0, 200⟩, ⟨[99, 104, 114, 50], 200, 0, 200⟩] ∧
    add_refs TwoBitRecord.name bytesLe
        [([99, 104, 114, 50], ⟨[99, 104, 114, 50], 200, 0, 200⟩)] []
        (some [⟨[99, 104, 114, 50], 200, 0, 200⟩]) =
      .ok [⟨[99, 104, 114, 50], 200, 0, 200⟩] := by
  exact ⟨rfl, rfl, rfl⟩

/-- C5: evaluation at the failing input.  On a sort-disabled FASTA run
with one accepted record (`>a` / `AC`), the extractor keys its mapping by
the decoded string `'a'` (line 232) but records the raw bytes `b'a'` in
`original_order` (line 240); at write time `refseqs[name]` (line 440)
looks the bytes up among the string keys and raises `KeyError`, so
`refSeqs.json` is never written and no record order is produced at all.
The third conjunct shows the write-time lookup succeeds when no order was
recorded (the sort-enabled path, which uses the mapping's own keys). -/
theorem C5_sort_disabled_keyerror :
    export_fastas_model ⟨false, true, none, 3⟩ [[62, 97, 10], [65, 67, 10]] =
      .ok ⟨[(PyKey.str [97], ⟨[97], 0, 2, 3, none⟩)], [PyKey.bytes [97]],
        [([97], 0, [65, 67])]⟩ ∧
    add_refs (fun c : CurrSeq => PyKey.str c.name) pyKeyLe
        [(PyKey.str [97], ⟨[97], 0, 2, 3, none⟩)] [PyKey.bytes [97]] none =
      .error () ∧
    add_refs (fun c : CurrSeq => PyKey.str c.name) pyKeyLe
        [(PyKey.str [97], ⟨[97], 0, 2, 3, none⟩)] [] none =
      .ok [⟨[97], 0, 2, 3, none⟩] := by
  exact ⟨rfl, rfl, rfl⟩

/-- C6: evaluation at the failing input.  With base storage disabled, a
FASTA stream with two headers crashes at the second header: the flush
call of lines 226-228 unpacks the `None` returned by
`_write_fasta_chunks` (line 310-311).  A single-record stream completes,
writing no chunk file and building the metadata record, which shows the
claim's intent and that the failure needs a second header. -/
theorem C6_noseq_crashes_on_second_header :
    export_fastas_model ⟨true, false, none, 20000⟩
        [[62, 97, 10], [65, 67, 10], [62, 98, 10]] = .error () ∧
    export_fastas_model ⟨true, false, none, 20000⟩
        [[62, 97, 10], [65, 67, 10]] =
      .ok ⟨[(PyKey.str [97], ⟨[97], 0, 2, 20000, none⟩)], [], []⟩ := by
  exact ⟨by rfl, by rfl⟩

/-- C7: evaluation at the failing input.  `export_gff_sizes` tests
`line.startswith('^##sequence-region')` with the regex anchor `^` as part
of the literal (line 299), so a well-formed `##sequence-region` line
produces no record, while a line beginning with the literal text
`^##sequence-region` does. -/
theorem C7_gff_sizes_caret_literal :
    export_gff_sizes_lines ["##sequence-region chr1 1 1000"] = .ok [] ∧
    export_gff_sizes_lines ["^##sequence-region chr1 1 1000"] =
      .ok [("chr1", ⟨"chr1", 0, 1000, 1000⟩)] := by
  exact ⟨by rfl, by rfl⟩

/-- C8 counterexample: after a metadata-only run (`seq` off),
`write_track_entry` returns at line 356-357 before touching or writing
anything, so `trackList.json` does not exist under a fresh output root —
the claim that it exists after every run fails. -/
theorem C8_counterexample_noseq_run :
    ¬ ("trackList.json" ∈ write_track_entry_files false []) := by decide

theorem touch_effect_mem (files : List String) (p : String) :
    p ∈ touch_effect files p := by
  rw [touch_effect]
  by_cases h : p ∈ files
  · rw [if_pos h]
    exact h
  · rw [if_neg h]
    simp

/-- C8 as amended: after a run with base storage enabled,
`write_track_entry` guarantees both `trackList.json` (created by the
merge write) and `tracks.conf` (created by the touch, which targets
`tracks.conf`, not `trackList.json`) exist under the output root; with
base storage disabled it returns immediately and guarantees nothing. -/
theorem C8_tracklist_presence (seqOpt : Bool) (files : List String)
    (h : seqOpt = true) :
    "trackList.json" ∈ write_track_entry_files seqOpt files ∧
    "tracks.conf" ∈ write_track_entry_files seqOpt files := by
  subst h
  rw [write_track_entry_files, if_pos rfl]
  constructor
  · by_cases h2 : "trackList.json" ∈ touch_effect files "tracks.conf"
    · rw [if_pos h2]
      exact h2
    · rw [if_neg h2]
      simp
  · have h1 : "tracks.conf" ∈ touch_effect files "tracks.conf" :=
      touch_effect_mem files "tracks.conf"
    by_cases h2 : "trackList.json" ∈ touch_effect files "tracks.conf"
    · rw [if_pos h2]
      exact h1
    · rw [if_neg h2]
      exact List.mem_append_left _ h1

/-- Witness for the amended C8 at a fresh output root. -/
theorem C8_tracklist_presence_witness :
    "trackList.json" ∈ write_track_entry_files true [] ∧
    "tracks.conf" ∈ write_track_entry_files true [] :=
  C8_tracklist_presence true [] rfl

/-- Case analysis of the 2bit header decoding (lines 170-177): the
little-endian template is tried first, then the big-endian one, and a
signature matching neither is the fatal invalid-file error. -/
theorem read_twobit_header_cases (file : ByteStr) (hlen : 16 ≤ file.length) :
    (unpack_le (file.take 4) = twobitMagic →
      ∃ h, read_twobit_header file = .ok h ∧ h.isLE = true) ∧
    (unpack_le (file.take 4) ≠ twobitMagic → unpack_be (file.take 4) = twobitMagic →
      ∃ h, read_twobit_header file = .ok h ∧ h.isLE = false) ∧
    (unpack_le (file.take 4) ≠ twobitMagic → unpack_be (file.take 4) ≠ twobitMagic →
      read_twobit_header file = .error "Invalid 2bit file") := by
  have hr : ((file.take 16).drop (4 * 0)).take 4 = file.take 4 := by
    rw [Nat.mul_zero, List.drop_zero, List.take_take]
    norm_num
  refine ⟨?_, ?_, ?_⟩
  · intro hL
    rw [read_twobit_header, if_neg (by omega)]
    simp only [unpack_word, if_true, hr, ite_true]
    rw [if_pos hL]
    exact ⟨_, rfl, rfl⟩
  · intro hL hB
    rw [read_twobit_header, if_neg (by omega)]
    simp only [unpack_word, if_true, ite_true, ite_false, hr]
    rw [if_neg hL, if_pos hB]
    exact ⟨_, rfl, rfl⟩
  · intro hL hB
    rw [read_twobit_header, if_neg (by omega)]
    simp only [unpack_word, if_true, ite_true, ite_false, hr]
    rw [if_neg hL, if_neg hB]

/-- C9: The 2bit extractor raises its fatal invalid-file error exactly
when the first four bytes match the magic constant in neither
little-endian nor big-endian order, and (for genuine byte values) the two
orders can never both match — so decoding in the wrong byte order never
silently succeeds. -/
theorem C9_twobit_signature (file : ByteStr) (hlen : 16 ≤ file.length)
    (hbytes : ∀ b ∈ file, b < 256) :
    ((∃ msg, read_twobit_header file = .error msg) ↔
      (unpack_le (file.take 4) ≠ twobitMagic ∧ unpack_be (file.take 4) ≠ twobitMagic)) ∧
    ¬ (unpack_le (file.take 4) = twobitMagic ∧ unpack_be (file.take 4) = twobitMagic) := by
  obtain ⟨hok1, hok2, herr⟩ := read_twobit_header_cases file hlen
  rcases file with - | ⟨b0, file⟩
  · simp at hlen
  rcases file with - | ⟨b1, file⟩
  · simp at hlen
  rcases file with - | ⟨b2, file⟩
  · simp at hlen
  rcases file with - | ⟨b3, file⟩
  · simp at hlen
  have ht : (b0 :: b1 :: b2 :: b3 :: file).take 4 = [b0, b1, b2, b3] := rfl
  have hle : unpack_le [b0, b1, b2, b3] =
      ((((0 : Nat) * 256 + b3) * 256 + b2) * 256 + b1) * 256 + b0 := rfl
  have hbe : unpack_be [b0, b1, b2, b3] =
      ((((0 : Nat) * 256 + b0) * 256 + b1) * 256 + b2) * 256 + b3 := rfl
  have hb0 : b0 < 256 := hbytes b0 (by simp)
  have hb1 : b1 < 256 := hbytes b1 (by simp)
  have hb2 : b2 < 256 := hbytes b2 (by simp)
  have hb3 : b3 < 256 := hbytes b3 (by simp)
  constructor
  · constructor
    · rintro ⟨msg, hmsg⟩
      by_cases hL : unpack_le ((b0 :: b1 :: b2 :: b3 :: file).take 4) = twobitMagic
      · obtain ⟨h, hh, -⟩ := hok1 hL
        rw [hmsg] at hh
        cases hh
      · by_cases hB : unpack_be ((b0 :: b1 :: b2 :: b3 :: file).take 4) = twobitMagic
        · obtain ⟨h, hh, -⟩ := hok2 hL hB
          rw [hmsg] at hh
          cases hh
        · exact ⟨hL, hB⟩
    · rintro ⟨hL, hB⟩
      exact ⟨_, herr hL hB⟩
  · rintro ⟨hL, hB⟩
    rw [ht, hle] at hL
    rw [ht, hbe] at hB
    rw [twobitMagic] at hL hB
    omega

/-- C10: Compression never touches the persisted JSON documents: the
store's `ext` field is `.jsonz` when compressing but no method consults
it — `modify` always writes plainly (`open(fn, 'w')`) at the filename
exactly as passed, so `seq/refSeqs.json` and `trackList.json` keep their
`.json` names for both compression settings; compression changes only
the chunk files (gzip content and a `z` appended to `.txt`) and adds the
`.htaccess` hint file. -/
theorem C10_compression_scope (out fn : String) (htw hashOpt : Bool)
    (name : ByteStr) (num : Nat) :
    jsonFileStore_ext false = ".json" ∧ jsonFileStore_ext true = ".jsonz" ∧
    (∀ compress : Bool, (modify_events out compress htw fn).1.getLast? =
      some ⟨out ++ "/" ++ fn, false⟩) ∧
    (modify_events out false htw fn).1 = [⟨out ++ "/" ++ fn, false⟩] ∧
    (modify_events out true false fn).1 =
      [⟨out ++ "/" ++ ".htaccess", false⟩, ⟨out ++ "/" ++ fn, false⟩] ∧
    (∃ base, open_chunk_event out hashOpt false name num = ⟨base ++ ".txt", false⟩) ∧
    (∃ base, open_chunk_event out hashOpt true name num = ⟨base ++ ".txtz", true⟩) := by
  refine ⟨rfl, rfl, ?_, rfl, rfl, ?_, ?_⟩
  · intro compress
    rw [modify_events]
    exact List.getLast?_concat _
  · cases hashOpt <;> exact ⟨_, rfl⟩
  · cases hashOpt with
    | false =>
        refine ⟨out ++ "/seq/" ++ decodeName name ++ "/" ++ toString num, ?_⟩
        show WriteEvent.mk
          ((out ++ "/seq/" ++ decodeName name ++ "/" ++ toString num ++ ".txt") ++ "z")
          true = _
        rw [String.append_assoc]
        rfl
    | true =>
        refine ⟨out ++ "/seq/" ++ String.intercalate "/" (crc32_path name) ++ "/" ++
          decodeName name ++ "-" ++ toString num, ?_⟩
        show WriteEvent.mk
          ((out ++ "/seq/" ++ String.intercalate "/" (crc32_path name) ++ "/" ++
            decodeName name ++ "-" ++ toString num ++ ".txt") ++ "z") true = _
        rw [String.append_assoc]
        rfl

/-! ## Concrete witnesses -/

/-- Witness for C1: one record `s1` of seven bases split at chunk size 3
into chunks of 3, 3 and 1 bytes numbered 0, 1, 2. -/
theorem C1_fasta_chunk_roundtrip_witness :
    (FastaOpts.mk true true none 3).seq = true ∧
    0 < (FastaOpts.mk true true none 3).chunk_size ∧
    ((acceptedSegments (FastaOpts.mk true true none 3)
        [[62, 115, 49, 10], [65, 67, 71, 84, 65, 10], [67, 71, 10]]).map
      FastaSeg.name).Nodup ∧
    (∃ out, export_fastas_model (FastaOpts.mk true true none 3)
        [[62, 115, 49, 10], [65, 67, 71, 84, 65, 10], [67, 71, 10]] = .ok out ∧
      ∀ s ∈ acceptedSegments (FastaOpts.mk true true none 3)
          [[62, 115, 49, 10], [65, 67, 71, 84, 65, 10], [67, 71, 10]],
        (((out.files.filter (fun f => f.1 = s.name)).map (fun f => f.2.2)).flatten
            = segBases s) ∧
        ((out.files.filter (fun f => f.1 = s.name)).map (fun f => f.2.1)
            = List.range (out.files.filter (fun f => f.1 = s.name)).length) ∧
        (∀ f ∈ (out.files.filter (fun f => f.1 = s.name)).dropLast,
            f.2.2.length = (FastaOpts.mk true true none 3).chunk_size) ∧
        (∀ f ∈ out.files.filter (fun f => f.1 = s.name),
            f.2.2.length ≤ (FastaOpts.mk true true none 3).chunk_size ∧ f.2.2 ≠ [])) :=
  ⟨rfl, by decide, by decide,
    C1_fasta_chunk_roundtrip (FastaOpts.mk true true none 3)
      [[62, 115, 49, 10], [65, 67, 71, 84, 65, 10], [67, 71, 10]]
      rfl (by decide) (by decide)⟩

/-- Witness for C9 at a big-endian-signature 16-byte header. -/
theorem C9_twobit_signature_witness :
    16 ≤ ([0x1A, 0x41, 0x27, 0x43, 0, 0, 0, 0, 0, 0, 0, 0, 0, 0, 0, 0] :
      ByteStr).length ∧
    (∀ b ∈ ([0x1A, 0x41, 0x27, 0x43, 0, 0, 0, 0, 0, 0, 0, 0, 0, 0, 0, 0] :
      ByteStr), b < 256) ∧
    (((∃ msg, read_twobit_header
          [0x1A, 0x41, 0x27, 0x43, 0, 0, 0, 0, 0, 0, 0, 0, 0, 0, 0, 0] =
        .error msg) ↔
      (unpack_le (([0x1A, 0x41, 0x27, 0x43, 0, 0, 0, 0, 0, 0, 0, 0, 0, 0, 0, 0] :
          ByteStr).take 4) ≠ twobitMagic ∧
        unpack_be (([0x1A, 0x41, 0x27, 0x43, 0, 0, 0, 0, 0, 0, 0, 0, 0, 0, 0, 0] :
          ByteStr).take 4) ≠ twobitMagic)) ∧
    ¬ (unpack_le (([0x1A, 0x41, 0x27, 0x43, 0, 0, 0, 0, 0, 0, 0, 0, 0, 0, 0, 0] :
          ByteStr).take 4) = twobitMagic ∧
        unpack_be (([0x1A, 0x41, 0x27, 0x43, 0, 0, 0, 0, 0, 0, 0, 0, 0, 0, 0, 0] :
          ByteStr).take 4) = twobitMagic)) :=
  ⟨by decide, by decide,
    C9_twobit_signature [0x1A, 0x41, 0x27, 0x43, 0, 0, 0, 0, 0, 0, 0, 0, 0, 0, 0, 0]
      (by decide) (by decide)⟩

end JBrowseUtils
